import Mathlib

/-!
Verification of the heic2jpg command-line converter (src/heic2jpg.py).

Shallow embedding: Python strings are `List Char`, filesystem paths are
lists of name components, the filesystem is a record of existing files,
directories and unreadable directories.  The external collaborators
(pyheif decode, PIL save, os.remove) are modelled by a success oracle;
os-library calls used by the script (os.walk, os.path.exists,
os.path.splitext, os.path.relpath, os.makedirs) are modelled by their
documented semantics at the call sites that occur in the script.
-/

/-- A Python string, as its list of characters. -/
abbrev Str := List Char

/-- A filesystem path, as its list of name components
(e.g. `/a/sub/x.heic` is `["a", "sub", "x.heic"]` componentwise). -/
abbrev FPath := List Str

/-- Python `str.lower()`. -/
def lowerStr (s : Str) : Str := s.map Char.toLower

/-- The characters of `".heic"`. -/
def heicExtChars : Str := ".heic".data

/-- The characters of `".heif"`. -/
def heifExtChars : Str := ".heif".data

/-- The characters of `".jpg"`. -/
def jpgExtChars : Str := ".jpg".data

/-- Embedding of the test at src/heic2jpg.py line 20:
`file.lower().endswith((".heic", ".heif"))`. -/
def HeicName (name : Str) : Prop :=
  heicExtChars <:+ lowerStr name ∨ heifExtChars <:+ lowerStr name

instance (name : Str) : Decidable (HeicName name) := by
  unfold HeicName; infer_instance

/-- The basename of a path: its last component (files always have a
nonempty path, so the default is irrelevant). -/
def basenameOf (p : FPath) : Str := p.getLastD []

/-- The filesystem state: the regular files and directories that exist,
and the directories that exist but cannot be scanned (permission
denied).  The order of `files` records the order in which a directory
walk enumerates files, which Python leaves implementation-defined. -/
structure FS where
  files : List FPath
  dirs : List FPath
  unreadable : List FPath
deriving DecidableEq

/-- Embedding of `os.path.exists`. -/
def pexists (fs : FS) (p : FPath) : Prop := p ∈ fs.files ∨ p ∈ fs.dirs

instance (fs : FS) (p : FPath) : Decidable (pexists fs p) := by
  unfold pexists; infer_instance

/-- A file is listed by `os.walk(root)` (with the default
`onerror=None`, as called at src/heic2jpg.py line 18) iff the root is an
existing directory, the file lies strictly below it, and every directory
on the way from the root to the file (the root included) is readable:
`os.walk` silently skips a directory whose `scandir` raises. -/
def Reachable (fs : FS) (root p : FPath) : Prop :=
  root ∈ fs.dirs ∧ root <+: p ∧ p ≠ root ∧
    ∀ n < p.length, root <+: p.take n → p.take n ∉ fs.unreadable

instance (fs : FS) (root p : FPath) : Decidable (Reachable fs root p) := by
  unfold Reachable; infer_instance

/-- The files enumerated by the `os.walk` loop of
src/heic2jpg.py lines 18-19, joined to their directory
(`os.path.join(root, file)`), in the walk's enumeration order. -/
def osWalkFiles (fs : FS) (root : FPath) : List FPath :=
  fs.files.filter (fun p => decide (Reachable fs root p))

/-- Embedding of `find_heic_files` (src/heic2jpg.py lines 15-24): walk
the tree and keep the files whose lowercased name ends in `.heic` or
`.heif`.  With `os.walk`'s default `onerror=None` a missing or
unreadable root yields no entries, so the function is total and never
raises. -/
def find_heic_files (fs : FS) (directory : FPath) : List FPath :=
  (osWalkFiles fs directory).filter (fun p => decide (HeicName (basenameOf p)))

/-- Embedding of `os.path.splitext` on a basename: split off the
extension at the last dot, except that a run of leading dots belongs to
the stem (`".heic"` has no extension, `"a..heic"` splits as
`("a.", ".heic")`). -/
def splitextName (name : Str) : Str × Str :=
  let lead := name.takeWhile (fun c => c = '.')
  let rest := name.drop lead.length
  let extLen := (rest.reverse.takeWhile (fun c => c ≠ '.')).length
  if extLen = rest.length then (name, [])
  else (lead ++ rest.take (rest.length - extLen - 1),
        rest.drop (rest.length - extLen - 1))

/-- Embedding of `os.path.splitext(path)[0] + '.jpg'` as performed on a
whole path string: the dot search never crosses a path separator, so
only the last component is rewritten. -/
def replaceLastWithJpg (p : FPath) : FPath :=
  p.dropLast ++ [(splitextName (basenameOf p)).1 ++ jpgExtChars]

/-- Embedding of `os.path.relpath(p, base)` in the only case the script exercises:
the scanner returns paths that extend the scan root, so the relative
path is the remaining components. -/
def relpathUnder (p base : FPath) : FPath := p.drop base.length

/-- Embedding of `os.makedirs(d, exist_ok=True)`: create `d` and every
missing ancestor; directories that already exist are left alone. -/
def makedirs (fs : FS) (d : FPath) : FS :=
  { fs with dirs := fs.dirs ++
      (((List.range (d.length + 1)).map (fun n => d.take n)).filter
        (fun q => decide (q ∉ fs.dirs))) }

/-- The destination path the planner computes for one source file
(src/heic2jpg.py lines 99-104), as a pure function of the inputs:
either re-rooted under the output directory or a sibling file. -/
def plannedDest (directory : FPath) (output_dir : Option FPath) (heic : FPath) : FPath :=
  match output_dir with
  | some out => out ++ replaceLastWithJpg (relpathUnder heic directory)
  | none => replaceLastWithJpg heic

/-- One iteration of the planning loop body before the skip test
(src/heic2jpg.py lines 99-104): compute the destination and, when an
output root is given, create its directory. -/
def plan_dest (fs : FS) (directory : FPath) (output_dir : Option FPath)
    (heic : FPath) : FS × FPath :=
  match output_dir with
  | some out =>
      let jpg := out ++ replaceLastWithJpg (relpathUnder heic directory)
      (makedirs fs jpg.dropLast, jpg)
  | none => (fs, replaceLastWithJpg heic)

/-- Embedding of the planning loop of src/heic2jpg.py lines 97-109:
for each scanned file compute the destination (creating output
directories as a side effect), and keep the pair unless `overwrite` is
false and the destination already exists. -/
def plan_jobs (directory : FPath) (output_dir : Option FPath) (overwrite : Bool) :
    FS → List FPath → FS × List (FPath × FPath)
  | fs, [] => (fs, [])
  | fs, heic :: rest =>
      let step := plan_dest fs directory output_dir heic
      let keep := overwrite || !(decide (pexists step.1 step.2))
      let tail := plan_jobs directory output_dir overwrite step.1 rest
      (tail.1, if keep then (heic, step.2) :: tail.2 else tail.2)

/-- Success oracle for the external collaborators of
`convert_heic_to_jpg`: whether `pyheif.read` + `Image.frombytes` +
EXIF transcoding succeed on a source, whether `image.save` of the JPEG
succeeds, and whether `os.remove` of the source succeeds. -/
structure Oracle where
  decodeOk : FPath → Bool
  saveOk : FPath → FPath → Bool
  removeOk : FPath → Bool

/-- The I/O actions `convert_heic_to_jpg` can attempt, recorded in
program order. -/
inductive Eff where
  | decode (p : FPath)
  | save (p : FPath)
  | remove (p : FPath)
deriving DecidableEq

/-- Creating the destination file on a successful `image.save`. -/
def writeFile (fs : FS) (p : FPath) : FS :=
  if p ∈ fs.files then fs else { fs with files := p :: fs.files }

/-- Removing a file on a successful `os.remove`. -/
def removeFile (fs : FS) (p : FPath) : FS :=
  { fs with files := fs.files.filter (fun q => decide (q ≠ p)) }

/-- Embedding of `convert_heic_to_jpg` (src/heic2jpg.py lines 26-55).
Returns the boolean result, the filesystem after the call, and the
trace of attempted I/O actions.  The skip test precedes the `try`
block; inside it, a decode failure, a save failure or a remove failure
raises, is caught by the `except` clause and yields `false`; the
source is removed only after a successful save and only when
`delete_original` is set. -/
def convert_heic_to_jpg (o : Oracle) (fs : FS) (heic_path jpg_path : FPath)
    (overwrite delete_original : Bool) : Bool × FS × List Eff :=
  if !overwrite && decide (pexists fs jpg_path) then (true, fs, [])
  else if !(o.decodeOk heic_path) then (false, fs, [Eff.decode heic_path])
  else if !(o.saveOk heic_path jpg_path) then
    (false, fs, [Eff.decode heic_path, Eff.save jpg_path])
  else
    let fs1 := writeFile fs jpg_path
    if delete_original then
      if o.removeOk heic_path then
        (true, removeFile fs1 heic_path,
          [Eff.decode heic_path, Eff.save jpg_path, Eff.remove heic_path])
      else
        (false, fs1,
          [Eff.decode heic_path, Eff.save jpg_path, Eff.remove heic_path])
    else (true, fs1, [Eff.decode heic_path, Eff.save jpg_path])

/-- Embedding of the dispatch of src/heic2jpg.py lines 124-131: every
planned job is handed to `convert_heic_to_jpg` exactly once and its
boolean outcome collected; a `false` outcome never stops the remaining
jobs.  The thread pool's jobs touch disjoint files, so the pool is
modelled by sequential execution in submission order. -/
def run_jobs (o : Oracle) (overwrite delete_original : Bool) :
    FS → List (FPath × FPath) → FS × List Bool
  | fs, [] => (fs, [])
  | fs, (heic, jpg) :: rest =>
      let step := convert_heic_to_jpg o fs heic jpg overwrite delete_original
      let tail := run_jobs o overwrite delete_original step.2.1 rest
      (tail.1, step.1 :: tail.2)

/-- The data `main` computes after the scan (src/heic2jpg.py
lines 91-141): the planned job list, the final filesystem, the
outcome list, and the reported total / success / failure counters. -/
structure PipeResult where
  jobs : List (FPath × FPath)
  fs : FS
  results : List Bool
  total : Nat
  success : Nat
  failure : Nat
deriving DecidableEq

/-- The scan → plan → dispatch → count pipeline of `main`
(src/heic2jpg.py lines 91-141), with `success_counter = sum(results)`
and `failure_counter = total_files - success_counter`. -/
def run_pipeline (o : Oracle) (fs : FS) (directory : FPath)
    (output_dir : Option FPath) (overwrite delete_original : Bool) : PipeResult :=
  let heic_files := find_heic_files fs directory
  let planned := plan_jobs directory output_dir overwrite fs heic_files
  let ran := run_jobs o overwrite delete_original planned.1 planned.2
  let total := planned.2.length
  let succ := ran.2.count true
  { jobs := planned.2, fs := ran.1, results := ran.2,
    total := total, success := succ, failure := total - succ }

/-- A Python runtime error. -/
inductive PyErr where
  | nameError (name : String)
deriving DecidableEq

/-- The global names bound at module level in src/heic2jpg.py: the
imports of lines 1-9 (`import os`, `import sys`,
`import concurrent.futures`, `from PIL import Image`, `import typer`,
`from loguru import logger`, `from tqdm import tqdm`, `import pyheif`,
`import piexif`) and the module-level definitions.  `time` is not
among them. -/
def moduleGlobals : List String :=
  ["os", "sys", "concurrent", "Image", "typer", "logger", "tqdm",
   "pyheif", "piexif", "app", "MAX_THREADS", "find_heic_files",
   "convert_heic_to_jpg", "setup_logging", "main"]

/-- Evaluating a global name: a name not bound at module level raises
`NameError`. -/
def evalGlobal (name : String) : Except PyErr Unit :=
  if moduleGlobals.contains name then Except.ok () else
    Except.error (PyErr.nameError name)

/-- Embedding of `main` (src/heic2jpg.py lines 76-145).  Line 86 sets
up logging (no filesystem effect); line 88 evaluates the global `time`
for `time.time()` before anything else; only then do the scan, the
planning, the dispatch and the summary of lines 91-145 run.  Returns
the filesystem after the call and either the pipeline result or the
raised error. -/
def main_run (o : Oracle) (fs : FS) (directory : FPath)
    (output_dir : Option FPath) (overwrite delete_original _verbose : Bool) :
    FS × Except PyErr PipeResult :=
  match evalGlobal "time" with
  | Except.error e => (fs, Except.error e)
  | Except.ok _ =>
      let r := run_pipeline o fs directory output_dir overwrite delete_original
      (r.fs, Except.ok r)

/-- Spec-side characterization of the Scanner (spec §4.1, §8): a path
belongs to the scan of `root` iff it is an existing file strictly below
the root directory whose name has a case-insensitive `.heic`/`.heif`
extension. -/
def SpecScanned (fs : FS) (root p : FPath) : Prop :=
  p ∈ fs.files ∧ root ∈ fs.dirs ∧ root <+: p ∧ p ≠ root ∧ HeicName (basenameOf p)

/-- Spec-side destination formula (spec §4.2 case 2): "destination =
source path with extension replaced by `.jpg` (sibling file)". -/
def specSiblingDest (p : FPath) : FPath :=
  p.dropLast ++ [(splitextName (basenameOf p)).1 ++ jpgExtChars]

/-- Example tree: directory `a` holding `x.heic`, `z.png` and a
subdirectory `sub` holding `y.HEIF`. -/
def fsExample : FS :=
  { files := [["a".data, "x.heic".data], ["a".data, "z.png".data],
              ["a".data, "sub".data, "y.HEIF".data]],
    dirs := [["a".data], ["a".data, "sub".data]],
    unreadable := [] }

/-- Example tree: directory `a` holding the single file `x.heic`. -/
def fsOneHeic : FS :=
  { files := [["a".data, "x.heic".data]],
    dirs := [["a".data]],
    unreadable := [] }

/-- Example tree: directory `a` holding the single file `x.heic.heic`. -/
def fsDoubleExt : FS :=
  { files := [["a".data, "x.heic.heic".data]],
    dirs := [["a".data]],
    unreadable := [] }

/-- Example tree for the output-root scenario of spec §8:
`/a/sub/x.heic`, with `/out` existing but `/out/sub` absent. -/
def fsOutScenario : FS :=
  { files := [["a".data, "sub".data, "x.heic".data]],
    dirs := [["a".data], ["a".data, "sub".data], ["out".data]],
    unreadable := [] }

/-- Example tree: directory `a` holding `x.heic` next to an already
converted `x.jpg`. -/
def fsAlreadyConverted : FS :=
  { files := [["a".data, "x.heic".data], ["a".data, "x.jpg".data]],
    dirs := [["a".data]],
    unreadable := [] }

/-- Oracle on which every decode, save and remove succeeds. -/
def oracleAllOk : Oracle :=
  { decodeOk := fun _ => true, saveOk := fun _ _ => true, removeOk := fun _ => true }

/-- Oracle on which decode and save succeed but `os.remove` raises. -/
def oracleNoRemove : Oracle :=
  { decodeOk := fun _ => true, saveOk := fun _ _ => true, removeOk := fun _ => false }

/-- Oracle on which every decode raises (corrupt inputs). -/
def oracleNoDecode : Oracle :=
  { decodeOk := fun _ => false, saveOk := fun _ _ => true, removeOk := fun _ => true }

/-! ### Helper lemmas -/

lemma lowerStr_append (s t : Str) : lowerStr (s ++ t) = lowerStr s ++ lowerStr t :=
  List.map_append _ s t

lemma jpg_suffix_of_append (stem : Str) :
    jpgExtChars <:+ lowerStr (stem ++ jpgExtChars) := by
  rw [lowerStr_append]
  have h : lowerStr jpgExtChars = jpgExtChars := by decide
  rw [h]
  exact List.suffix_append _ _

lemma not_heicName_of_jpg {name : Str} (h : jpgExtChars <:+ lowerStr name) :
    ¬ HeicName name := by
  rintro (hh | hh)
  · rcases List.suffix_or_suffix_of_suffix h hh with h' | h' <;> revert h' <;> decide
  · rcases List.suffix_or_suffix_of_suffix h hh with h' | h' <;> revert h' <;> decide

lemma basenameOf_append_single (l : FPath) (x : Str) :
    basenameOf (l ++ [x]) = x := by
  simp [basenameOf, List.getLastD_concat]

lemma basenameOf_replaceLastWithJpg (p : FPath) :
    basenameOf (replaceLastWithJpg p) =
      (splitextName (basenameOf p)).1 ++ jpgExtChars := by
  simp [replaceLastWithJpg, basenameOf_append_single]

lemma plannedDest_basename (d : FPath) (od : Option FPath) (heic : FPath) :
    basenameOf (plannedDest d od heic) =
      (splitextName (basenameOf (match od with
        | some _ => relpathUnder heic d
        | none => heic))).1 ++ jpgExtChars := by
  cases od with
  | none => simpa [plannedDest] using basenameOf_replaceLastWithJpg heic
  | some out =>
      show basenameOf (out ++ replaceLastWithJpg (relpathUnder heic d)) = _
      rw [replaceLastWithJpg, ← List.append_assoc, basenameOf_append_single]

lemma plannedDest_jpg (d : FPath) (od : Option FPath) (heic : FPath) :
    jpgExtChars <:+ lowerStr (basenameOf (plannedDest d od heic)) := by
  rw [plannedDest_basename]
  exact jpg_suffix_of_append _

lemma plannedDest_not_heicName (d : FPath) (od : Option FPath) (heic : FPath) :
    ¬ HeicName (basenameOf (plannedDest d od heic)) :=
  not_heicName_of_jpg (plannedDest_jpg d od heic)

/-- The `makedirs` model never touches files or readability and only adds directories. -/
lemma makedirs_files (fs : FS) (d : FPath) : (makedirs fs d).files = fs.files := rfl

lemma makedirs_unreadable (fs : FS) (d : FPath) :
    (makedirs fs d).unreadable = fs.unreadable := rfl

lemma makedirs_dirs_mono (fs : FS) (d : FPath) {q : FPath} (h : q ∈ fs.dirs) :
    q ∈ (makedirs fs d).dirs := by
  simp only [makedirs]
  exact List.mem_append_left _ h

lemma pexists_makedirs (fs : FS) (d : FPath) {q : FPath} (h : pexists fs q) :
    pexists (makedirs fs d) q := by
  rcases h with h | h
  · exact Or.inl h
  · exact Or.inr (makedirs_dirs_mono fs d h)

lemma makedirs_mem_take (fs : FS) (d : FPath) {n : Nat} (hn : n ≤ d.length) :
    d.take n ∈ (makedirs fs d).dirs := by
  by_cases h : d.take n ∈ fs.dirs
  · exact makedirs_dirs_mono fs d h
  · simp only [makedirs]
    refine List.mem_append_right _ ?_
    refine List.mem_filter.mpr ⟨List.mem_map.mpr ⟨n, ?_, rfl⟩, by simpa using h⟩
    exact List.mem_range.mpr (Nat.lt_succ_of_le hn)

lemma makedirs_idem (fs : FS) (d : FPath)
    (h : ∀ n ≤ d.length, d.take n ∈ fs.dirs) : makedirs fs d = fs := by
  have hf : (((List.range (d.length + 1)).map (fun n => d.take n)).filter
      (fun q => decide (q ∉ fs.dirs))) = [] := by
    rw [List.filter_eq_nil_iff]
    intro a ha
    rcases List.mem_map.mp ha with ⟨n, hn, rfl⟩
    simpa using h n (Nat.le_of_lt_succ (List.mem_range.mp hn))
  cases fs with
  | mk files dirs unreadable => simp only [makedirs, hf, List.append_nil]

lemma plan_dest_snd (fs : FS) (d : FPath) (od : Option FPath) (heic : FPath) :
    (plan_dest fs d od heic).2 = plannedDest d od heic := by
  cases od <;> rfl

lemma plan_dest_files (fs : FS) (d : FPath) (od : Option FPath) (heic : FPath) :
    (plan_dest fs d od heic).1.files = fs.files := by
  cases od <;> rfl

lemma plan_dest_unreadable (fs : FS) (d : FPath) (od : Option FPath) (heic : FPath) :
    (plan_dest fs d od heic).1.unreadable = fs.unreadable := by
  cases od <;> rfl

lemma plan_dest_dirs_mono (fs : FS) (d : FPath) (od : Option FPath) (heic : FPath)
    {q : FPath} (h : q ∈ fs.dirs) : q ∈ (plan_dest fs d od heic).1.dirs := by
  cases od with
  | none => exact h
  | some out => exact makedirs_dirs_mono _ _ h

lemma pexists_plan_dest (fs : FS) (d : FPath) (od : Option FPath) (heic : FPath)
    {q : FPath} (h : pexists fs q) : pexists (plan_dest fs d od heic).1 q := by
  cases od with
  | none => exact h
  | some out => exact pexists_makedirs _ _ h

lemma plan_jobs_files (d : FPath) (od : Option FPath) (ow : Bool) (fs : FS)
    (l : List FPath) : (plan_jobs d od ow fs l).1.files = fs.files := by
  induction l generalizing fs with
  | nil => rfl
  | cons a rest ih =>
      simp only [plan_jobs]
      rw [ih, plan_dest_files]

lemma plan_jobs_unreadable (d : FPath) (od : Option FPath) (ow : Bool) (fs : FS)
    (l : List FPath) : (plan_jobs d od ow fs l).1.unreadable = fs.unreadable := by
  induction l generalizing fs with
  | nil => rfl
  | cons a rest ih =>
      simp only [plan_jobs]
      rw [ih, plan_dest_unreadable]

lemma pexists_plan_jobs (d : FPath) (od : Option FPath) (ow : Bool) (fs : FS)
    (l : List FPath) {q : FPath} (h : pexists fs q) :
    pexists (plan_jobs d od ow fs l).1 q := by
  induction l generalizing fs with
  | nil => exact h
  | cons a rest ih => exact ih _ (pexists_plan_dest fs d od a h)

lemma plan_jobs_mem (d : FPath) (od : Option FPath) (ow : Bool) (fs : FS)
    (l : List FPath) {pr : FPath × FPath} (h : pr ∈ (plan_jobs d od ow fs l).2) :
    pr.1 ∈ l ∧ pr.2 = plannedDest d od pr.1 := by
  induction l generalizing fs with
  | nil => cases h
  | cons a rest ih =>
      simp only [plan_jobs] at h
      by_cases hk : (ow || !(decide (pexists (plan_dest fs d od a).1
          (plan_dest fs d od a).2))) = true
      · rw [if_pos hk] at h
        rcases List.mem_cons.mp h with h | h
        · subst h
          exact ⟨List.mem_cons_self _ _, plan_dest_snd fs d od a⟩
        · rcases ih _ h with ⟨h1, h2⟩
          exact ⟨List.mem_cons_of_mem _ h1, h2⟩
      · rw [if_neg hk] at h
        rcases ih _ h with ⟨h1, h2⟩
        exact ⟨List.mem_cons_of_mem _ h1, h2⟩

/-- A source whose planned destination already exists never enters the
job list when `overwrite` is false (planning states only grow, so an
initially existing destination still exists at the skip test). -/
lemma plan_jobs_skips (d : FPath) (od : Option FPath) (fs : FS) (l : List FPath)
    {heic : FPath} (hex : pexists fs (plannedDest d od heic)) :
    ∀ j, (heic, j) ∉ (plan_jobs d od false fs l).2 := by
  induction l generalizing fs with
  | nil => intro j h; cases h
  | cons a rest ih =>
      intro j h
      simp only [plan_jobs] at h
      have hmono : pexists (plan_dest fs d od a).1 (plannedDest d od heic) :=
        pexists_plan_dest fs d od a hex
      by_cases ha : a = heic
      · subst ha
        have hk : (false || !(decide (pexists (plan_dest fs d od a).1
            (plan_dest fs d od a).2))) = false := by
          rw [plan_dest_snd]
          simpa using hmono
        rw [hk, if_neg (by simp)] at h
        exact ih _ hmono j h
      · by_cases hk : (false || !(decide (pexists (plan_dest fs d od a).1
            (plan_dest fs d od a).2))) = true
        · rw [if_pos hk] at h
          rcases List.mem_cons.mp h with h | h
          · exact ha (congrArg Prod.fst h).symm
          · exact ih _ hmono j h
        · rw [if_neg hk] at h
          exact ih _ hmono j h

/-- When every scanned file's destination already exists, planning with
`overwrite = false` produces the empty job list. -/
lemma plan_jobs_all_skipped (d : FPath) (od : Option FPath) (fs : FS)
    (l : List FPath) (hall : ∀ p ∈ l, pexists fs (plannedDest d od p)) :
    (plan_jobs d od false fs l).2 = [] := by
  induction l generalizing fs with
  | nil => rfl
  | cons a rest ih =>
      simp only [plan_jobs]
      have hex : pexists (plan_dest fs d od a).1 (plannedDest d od a) :=
        pexists_plan_dest fs d od a (hall a (List.mem_cons_self _ _))
      have hk : (false || !(decide (pexists (plan_dest fs d od a).1
          (plan_dest fs d od a).2))) = false := by
        rw [plan_dest_snd]
        simpa using hex
      rw [hk, if_neg (by simp)]
      exact ih _ (fun p hp =>
        pexists_plan_dest fs d od a (hall p (List.mem_cons_of_mem _ hp)))

/-- Every scanned file either becomes a job or its destination exists in
the final planning state. -/
lemma plan_jobs_mem_or_skipped (d : FPath) (od : Option FPath) (ow : Bool)
    (fs : FS) (l : List FPath) {p : FPath} (hp : p ∈ l) :
    (p, plannedDest d od p) ∈ (plan_jobs d od ow fs l).2 ∨
      pexists (plan_jobs d od ow fs l).1 (plannedDest d od p) := by
  induction l generalizing fs with
  | nil => cases hp
  | cons a rest ih =>
      rcases List.mem_cons.mp hp with rfl | hp'
      · by_cases hk : (ow || !(decide (pexists (plan_dest fs d od p).1
            (plan_dest fs d od p).2))) = true
        · left
          simp only [plan_jobs, if_pos hk]
          rw [← plan_dest_snd fs d od p]
          exact List.mem_cons_self _ _
        · right
          have hex : pexists (plan_dest fs d od p).1 (plannedDest d od p) := by
            rcases Bool.or_eq_false_iff.mp (Bool.eq_false_iff.mpr hk) with ⟨-, h2⟩
            rw [← plan_dest_snd fs d od p]
            simpa using h2
          simpa only [plan_jobs] using pexists_plan_jobs d od ow _ rest hex
      · rcases ih (plan_dest fs d od a).1 hp' with h | h
        · left
          simp only [plan_jobs]
          by_cases hk : (ow || !(decide (pexists (plan_dest fs d od a).1
              (plan_dest fs d od a).2))) = true
          · rw [if_pos hk]; exact List.mem_cons_of_mem _ h
          · rw [if_neg hk]; exact h
        · right
          simpa only [plan_jobs] using h

lemma writeFile_dirs (fs : FS) (p : FPath) : (writeFile fs p).dirs = fs.dirs := by
  unfold writeFile; split <;> rfl

lemma writeFile_unreadable (fs : FS) (p : FPath) :
    (writeFile fs p).unreadable = fs.unreadable := by
  unfold writeFile; split <;> rfl

lemma writeFile_mem (fs : FS) (p : FPath) : p ∈ (writeFile fs p).files := by
  unfold writeFile; split
  · assumption
  · exact List.mem_cons_self _ _

lemma writeFile_mem_of (fs : FS) (p : FPath) {q : FPath} (h : q ∈ fs.files) :
    q ∈ (writeFile fs p).files := by
  unfold writeFile; split
  · exact h
  · exact List.mem_cons_of_mem _ h

lemma writeFile_subset (fs : FS) (p : FPath) {q : FPath}
    (h : q ∈ (writeFile fs p).files) : q ∈ fs.files ∨ q = p := by
  unfold writeFile at h; split at h
  · exact Or.inl h
  · rcases List.mem_cons.mp h with h | h
    · exact Or.inr h
    · exact Or.inl h

lemma removeFile_dirs (fs : FS) (p : FPath) : (removeFile fs p).dirs = fs.dirs := rfl

lemma removeFile_unreadable (fs : FS) (p : FPath) :
    (removeFile fs p).unreadable = fs.unreadable := rfl

lemma removeFile_mem_of (fs : FS) (p : FPath) {q : FPath} (h : q ∈ fs.files)
    (hne : q ≠ p) : q ∈ (removeFile fs p).files :=
  List.mem_filter.mpr ⟨h, by simpa using hne⟩

lemma removeFile_subset (fs : FS) (p : FPath) {q : FPath}
    (h : q ∈ (removeFile fs p).files) : q ∈ fs.files :=
  (List.mem_filter.mp h).1

lemma convert_dirs (o : Oracle) (fs : FS) (h j : FPath) (ow del : Bool) :
    (convert_heic_to_jpg o fs h j ow del).2.1.dirs = fs.dirs := by
  unfold convert_heic_to_jpg
  split_ifs <;> simp [removeFile_dirs, writeFile_dirs]

lemma convert_unreadable (o : Oracle) (fs : FS) (h j : FPath) (ow del : Bool) :
    (convert_heic_to_jpg o fs h j ow del).2.1.unreadable = fs.unreadable := by
  unfold convert_heic_to_jpg
  split_ifs <;> simp [removeFile_unreadable, writeFile_unreadable]

lemma convert_files_subset (o : Oracle) (fs : FS) (h j : FPath) (ow del : Bool)
    {q : FPath} (hq : q ∈ (convert_heic_to_jpg o fs h j ow del).2.1.files) :
    q ∈ fs.files ∨ q = j := by
  unfold convert_heic_to_jpg at hq
  split_ifs at hq <;>
    first
      | exact Or.inl hq
      | exact writeFile_subset fs j (by simpa using removeFile_subset _ h hq)
      | exact writeFile_subset fs j hq

lemma convert_preserves (o : Oracle) (fs : FS) (h j : FPath) (ow del : Bool)
    {q : FPath} (hq : pexists fs q) (hne : q ≠ h) :
    pexists (convert_heic_to_jpg o fs h j ow del).2.1 q := by
  rcases hq with hq | hq
  · left
    unfold convert_heic_to_jpg
    split_ifs <;>
      first
        | exact hq
        | exact removeFile_mem_of _ h (writeFile_mem_of fs j hq) hne
        | exact writeFile_mem_of fs j hq
  · right
    rw [convert_dirs]
    exact hq

lemma convert_success_dest (o : Oracle) (fs : FS) (h j : FPath) (ow del : Bool)
    (hne : j ≠ h) (hr : (convert_heic_to_jpg o fs h j ow del).1 = true) :
    pexists (convert_heic_to_jpg o fs h j ow del).2.1 j := by
  unfold convert_heic_to_jpg at hr ⊢
  split_ifs at hr ⊢ with h1 h2 h3 h4 h5
  · rcases Bool.and_eq_true_iff.mp h1 with ⟨-, hx⟩
    simpa using hx
  any_goals cases hr
  · exact Or.inl (removeFile_mem_of _ h (writeFile_mem fs j) hne)
  · exact Or.inl (writeFile_mem fs j)

lemma run_jobs_dirs (o : Oracle) (ow del : Bool) (fs : FS)
    (jobs : List (FPath × FPath)) : (run_jobs o ow del fs jobs).1.dirs = fs.dirs := by
  induction jobs generalizing fs with
  | nil => rfl
  | cons a rest ih =>
      cases a with
      | mk h j =>
          simp only [run_jobs]
          rw [ih, convert_dirs]

lemma run_jobs_unreadable (o : Oracle) (ow del : Bool) (fs : FS)
    (jobs : List (FPath × FPath)) :
    (run_jobs o ow del fs jobs).1.unreadable = fs.unreadable := by
  induction jobs generalizing fs with
  | nil => rfl
  | cons a rest ih =>
      cases a with
      | mk h j =>
          simp only [run_jobs]
          rw [ih, convert_unreadable]

lemma run_jobs_length (o : Oracle) (ow del : Bool) (fs : FS)
    (jobs : List (FPath × FPath)) :
    (run_jobs o ow del fs jobs).2.length = jobs.length := by
  induction jobs generalizing fs with
  | nil => rfl
  | cons a rest ih =>
      cases a with
      | mk h j =>
          simp only [run_jobs, List.length_cons]
          rw [ih]

lemma run_jobs_append (o : Oracle) (ow del : Bool) (fs : FS)
    (pre post : List (FPath × FPath)) :
    run_jobs o ow del fs (pre ++ post) =
      ((run_jobs o ow del (run_jobs o ow del fs pre).1 post).1,
        (run_jobs o ow del fs pre).2 ++
          (run_jobs o ow del (run_jobs o ow del fs pre).1 post).2) := by
  induction pre generalizing fs with
  | nil => rfl
  | cons a rest ih =>
      cases a with
      | mk h j =>
          simp only [List.cons_append, run_jobs, List.append_eq]
          rw [ih]

lemma run_jobs_files_subset (o : Oracle) (ow del : Bool) (fs : FS)
    (jobs : List (FPath × FPath)) {q : FPath}
    (hq : q ∈ (run_jobs o ow del fs jobs).1.files) :
    q ∈ fs.files ∨ ∃ pr ∈ jobs, q = pr.2 := by
  induction jobs generalizing fs with
  | nil => exact Or.inl hq
  | cons a rest ih =>
      cases a with
      | mk h j =>
          simp only [run_jobs] at hq
          rcases ih _ hq with hq' | ⟨pr, hpr, rfl⟩
          · rcases convert_files_subset o fs h j ow del hq' with hq'' | rfl
            · exact Or.inl hq''
            · exact Or.inr ⟨(h, q), List.mem_cons_self _ _, rfl⟩
          · exact Or.inr ⟨pr, List.mem_cons_of_mem _ hpr, rfl⟩

/-- A path that exists and is not HEIC-named survives the whole
dispatch, provided every job source is HEIC-named (the only removals
are of job sources). -/
lemma run_jobs_preserves (o : Oracle) (ow del : Bool) (fs : FS)
    (jobs : List (FPath × FPath)) {q : FPath} (hq : pexists fs q)
    (hqn : ¬ HeicName (basenameOf q))
    (hsrc : ∀ pr ∈ jobs, HeicName (basenameOf pr.1)) :
    pexists (run_jobs o ow del fs jobs).1 q := by
  induction jobs generalizing fs with
  | nil => exact hq
  | cons a rest ih =>
      cases a with
      | mk h j =>
          simp only [run_jobs]
          have hne : q ≠ h := by
            intro he
            exact hqn (he ▸ hsrc (h, j) (List.mem_cons_self _ _))
          exact ih _ (convert_preserves o fs h j ow del hq hne)
            (fun pr hpr => hsrc pr (List.mem_cons_of_mem _ hpr))

/-- When every outcome of the dispatch is a success, every job's
destination exists afterwards (job sources are HEIC-named, job
destinations are not, so no later removal can delete a destination). -/
lemma run_jobs_success_dest (o : Oracle) (ow del : Bool) (fs : FS)
    (jobs : List (FPath × FPath))
    (hall : ∀ r ∈ (run_jobs o ow del fs jobs).2, r = true)
    (hsrc : ∀ pr ∈ jobs, HeicName (basenameOf pr.1))
    (hdst : ∀ pr ∈ jobs, ¬ HeicName (basenameOf pr.2)) :
    ∀ pr ∈ jobs, pexists (run_jobs o ow del fs jobs).1 pr.2 := by
  induction jobs generalizing fs with
  | nil => intro pr hpr; cases hpr
  | cons a rest ih =>
      cases a with
      | mk h j =>
          intro pr hpr
          have hne : j ≠ h := by
            intro he
            exact hdst (h, j) (List.mem_cons_self _ _)
              (by rw [show ((h, j) : FPath × FPath).2 = j from rfl, he];
                  exact hsrc (h, j) (List.mem_cons_self _ _))
          have hr0 : (convert_heic_to_jpg o fs h j ow del).1 = true := by
            refine hall _ ?_
            simp only [run_jobs]
            exact List.mem_cons_self _ _
          rcases List.mem_cons.mp hpr with rfl | hpr'
          · simp only [run_jobs]
            exact run_jobs_preserves o ow del _ rest
              (convert_success_dest o fs h j ow del hne hr0)
              (hdst (h, j) (List.mem_cons_self _ _))
              (fun pr' hpr' => hsrc pr' (List.mem_cons_of_mem _ hpr'))
          · simp only [run_jobs]
            refine ih _ ?_ (fun pr' h' => hsrc pr' (List.mem_cons_of_mem _ h'))
              (fun pr' h' => hdst pr' (List.mem_cons_of_mem _ h')) pr hpr'
            intro r hr
            refine hall r ?_
            simp only [run_jobs]
            exact List.mem_cons_of_mem _ hr

lemma find_mem_iff (fs : FS) (d p : FPath) :
    p ∈ find_heic_files fs d ↔
      p ∈ fs.files ∧ Reachable fs d p ∧ HeicName (basenameOf p) := by
  unfold find_heic_files osWalkFiles
  simp only [List.mem_filter, decide_eq_true_eq]
  tauto

lemma reachable_back {fs fs' : FS} {d p : FPath}
    (hu : fs'.unreadable = fs.unreadable) (hd : d ∈ fs.dirs)
    (h : Reachable fs' d p) : Reachable fs d p := by
  rcases h with ⟨-, h2, h3, h4⟩
  exact ⟨hd, h2, h3, fun n hn hpre => hu ▸ h4 n hn hpre⟩

/-! ### Claim theorems -/

/-- C1: every invocation of `main` evaluates `time.time()` at
src/heic2jpg.py line 88, but the `time` module is never imported
(lines 1-9), so a `NameError` is raised before any scanning, planning,
conversion or summary reporting: the filesystem is returned untouched
together with the error, and `main` never completes normally for any
input. -/
theorem claim_C1_main_name_error (o : Oracle) (fs : FS) (directory : FPath)
    (output_dir : Option FPath) (overwrite delete_original verbose : Bool) :
    main_run o fs directory output_dir overwrite delete_original verbose =
      (fs, Except.error (PyErr.nameError "time")) := rfl

/-- C2: on any readable directory tree the Scanner returns exactly the
set of existing files strictly below the root whose name has a
case-insensitive `.heic`/`.heif` extension, and the returned collection
is permutation-invariant under any reordering of the walk's enumeration
of files. -/
theorem claim_C2_scanner_exact (fs : FS) (root p : FPath) (l' : List FPath)
    (hru : fs.unreadable = []) (hperm : fs.files.Perm l') :
    (p ∈ find_heic_files fs root ↔ SpecScanned fs root p) ∧
    (find_heic_files fs root).Perm
      (find_heic_files { fs with files := l' } root) := by
  constructor
  · rw [find_mem_iff, SpecScanned]
    constructor
    · rintro ⟨h1, ⟨h2, h3, h4, -⟩, h5⟩
      exact ⟨h1, h2, h3, h4, h5⟩
    · rintro ⟨h1, h2, h3, h4, h5⟩
      refine ⟨h1, ⟨h2, h3, h4, fun n hn hpre => ?_⟩, h5⟩
      rw [hru]
      exact List.not_mem_nil _
  · unfold find_heic_files osWalkFiles
    exact List.Perm.filter _ (List.Perm.filter _ hperm)

/-- Witness for C2 on the example tree of spec §8 scenario 1 (with a
subdirectory added): `a/x.heic` is scanned, and reversing the walk
order permutes the result. -/
theorem claim_C2_scanner_exact_witness :
    fsExample.unreadable = [] ∧
    fsExample.files.Perm fsExample.files.reverse ∧
    ((["a".data, "x.heic".data] ∈ find_heic_files fsExample ["a".data] ↔
        SpecScanned fsExample ["a".data] ["a".data, "x.heic".data]) ∧
      (find_heic_files fsExample ["a".data]).Perm
        (find_heic_files { fsExample with files := fsExample.files.reverse }
          ["a".data])) :=
  ⟨rfl, by decide,
    claim_C2_scanner_exact fsExample ["a".data] ["a".data, "x.heic".data]
      fsExample.files.reverse rfl (by decide)⟩

/-- C3 counterexample: the claim says a missing root makes the Scanner
fail with a `DirectoryNotFound`/`IOError` rather than return an empty
result.  In the code `os.walk` is called with its default
`onerror=None`, which swallows the `scandir` error, so
`find_heic_files` on the missing root `b` returns the empty list and
no error is ever raised. -/
theorem claim_C3_counterexample :
    ["b".data] ∉ fsExample.dirs ∧ find_heic_files fsExample ["b".data] = [] := by
  decide

/-- C3 as amended: if the root does not exist or is not readable the
Scanner returns the empty list (it does not fail), and individual
unreadable subdirectories are merely skipped: every returned file has
only readable directories on its path from the root. -/
theorem claim_C3_amended_scan_errors (fs : FS) (root : FPath) :
    ((root ∉ fs.dirs ∨ root ∈ fs.unreadable) → find_heic_files fs root = []) ∧
    (∀ p ∈ find_heic_files fs root,
      ∀ n < p.length, root <+: p.take n → p.take n ∉ fs.unreadable) := by
  constructor
  · intro hroot
    unfold find_heic_files osWalkFiles
    rw [List.filter_filter, List.filter_eq_nil_iff]
    intro p hp
    simp only [Bool.and_eq_true, decide_eq_true_eq, not_and]
    intro hhe hre
    rcases hre with ⟨h1, h2, h3, h4⟩
    rcases hroot with hroot | hroot
    · exact hroot h1
    · have hlen : root.length < p.length := by
        rcases h2.length_le.lt_or_eq with h | h
        · exact h
        · exact absurd (h2.eq_of_length h) (Ne.symm h3)
      have htake : p.take root.length = root :=
        (List.prefix_iff_eq_take.mp h2).symm
      have := h4 root.length hlen (by rw [htake])
      rw [htake] at this
      exact this hroot
  · intro p hp
    exact ((find_mem_iff fs root p).mp hp).2.1.2.2.2

/-- Witness for the amended C3: scanning the missing root `b` of the
example tree returns the empty list. -/
theorem claim_C3_amended_scan_errors_witness :
    (["b".data] ∉ fsExample.dirs ∨ ["b".data] ∈ fsExample.unreadable) ∧
    find_heic_files fsExample ["b".data] = [] :=
  ⟨Or.inl (by decide),
    (claim_C3_amended_scan_errors fsExample ["b".data]).1 (Or.inl (by decide))⟩

/-- C4 counterexample: the claim adds that the original HEIC/HEIF
extension "no longer appears in the destination filename".  For the
scanner-eligible source `a/x.heic.heic`, `os.path.splitext` strips only
the final extension, the planned sibling destination is `a/x.heic.jpg`,
and the original extension `.heic` still appears inside the destination
filename. -/
theorem claim_C4_counterexample :
    HeicName "x.heic.heic".data ∧
    (splitextName "x.heic.heic".data).2 = ".heic".data ∧
    (plan_dest fsDoubleExt ["a".data] none ["a".data, "x.heic.heic".data]).2 =
      ["a".data, "x.heic.jpg".data] ∧
    (splitextName "x.heic.heic".data).2 <:+: basenameOf
      (plan_dest fsDoubleExt ["a".data] none ["a".data, "x.heic.heic".data]).2 := by
  decide

/-- C4 as amended: with no output root the planned destination is the
source path with its final extension replaced by lowercase `.jpg`,
placed as a sibling in the same directory, without touching the
filesystem; the destination filename ends in `.jpg` and no longer ends
in a HEIC/HEIF extension (though, as the counterexample shows, the old
extension may survive inside the stem of a multi-extension name). -/
theorem claim_C4_amended_sibling_dest (fs : FS) (d heic : FPath) :
    (plan_dest fs d none heic).1 = fs ∧
    (plan_dest fs d none heic).2 = specSiblingDest heic ∧
    (plan_dest fs d none heic).2.dropLast = heic.dropLast ∧
    jpgExtChars <:+ lowerStr (basenameOf (plan_dest fs d none heic).2) ∧
    ¬ HeicName (basenameOf (plan_dest fs d none heic).2) := by
  refine ⟨rfl, rfl, ?_, ?_, ?_⟩
  · show (heic.dropLast ++ [_]).dropLast = heic.dropLast
    exact List.dropLast_concat ..
  · rw [plan_dest_snd]
    exact plannedDest_jpg d none heic
  · rw [plan_dest_snd]
    exact plannedDest_not_heicName d none heic

/-- C5: with an output root, the planned destination is the source
path taken relative to the scan root (which the relative-path embedding
reproduces exactly for scanner outputs, which extend the root),
re-rooted under the output root with the extension replaced by `.jpg`;
all ancestor directories of the destination are created, the creation
is idempotent, and it only adds directories (files are untouched). -/
theorem claim_C5_output_dest (fs : FS) (d out heic : FPath) (h : d <+: heic) :
    d ++ relpathUnder heic d = heic ∧
    (plan_dest fs d (some out) heic).2 =
      out ++ specSiblingDest (relpathUnder heic d) ∧
    (∀ n ≤ (plan_dest fs d (some out) heic).2.dropLast.length,
      (plan_dest fs d (some out) heic).2.dropLast.take n ∈
        (plan_dest fs d (some out) heic).1.dirs) ∧
    plan_dest (plan_dest fs d (some out) heic).1 d (some out) heic =
      plan_dest fs d (some out) heic ∧
    (plan_dest fs d (some out) heic).1.files = fs.files ∧
    (∀ q ∈ fs.dirs, q ∈ (plan_dest fs d (some out) heic).1.dirs) := by
  refine ⟨?_, rfl, ?_, ?_, plan_dest_files fs d (some out) heic,
    fun q hq => plan_dest_dirs_mono fs d (some out) heic hq⟩
  · obtain ⟨t, rfl⟩ := h
    rw [relpathUnder, List.drop_left]
  · intro n hn
    exact makedirs_mem_take fs _ hn
  · show (makedirs (makedirs fs _) _, _) = (makedirs fs _, _)
    rw [makedirs_idem]
    intro n hn
    exact makedirs_mem_take fs _ hn

/-- Witness for C5, spec §8 scenario 2: `/a/sub/x.heic` with output
root `/out` maps to `/out/sub/x.jpg`, and `/out/sub` is among the
directories after planning. -/
theorem claim_C5_output_dest_witness :
    ["a".data] <+: ["a".data, "sub".data, "x.heic".data] ∧
    (plan_dest fsOutScenario ["a".data] (some ["out".data])
        ["a".data, "sub".data, "x.heic".data]).2 =
      ["out".data] ++ specSiblingDest
        (relpathUnder ["a".data, "sub".data, "x.heic".data] ["a".data]) ∧
    (plan_dest fsOutScenario ["a".data] (some ["out".data])
        ["a".data, "sub".data, "x.heic".data]).2 =
      ["out".data, "sub".data, "x.jpg".data] ∧
    ["out".data, "sub".data] ∈ (plan_dest fsOutScenario ["a".data]
        (some ["out".data]) ["a".data, "sub".data, "x.heic".data]).1.dirs :=
  ⟨by decide,
    (claim_C5_output_dest fsOutScenario ["a".data] ["out".data]
      ["a".data, "sub".data, "x.heic".data] (by decide)).2.1,
    by decide, by decide⟩

/-- C6: with `overwrite` false, a source whose computed destination
already exists is excluded from the job list handed to the Dispatcher
(it appears as the source of no job), and every counted outcome
corresponds to exactly one job of that list, so the excluded source
contributes to neither the success nor the failure count. -/
theorem claim_C6_existing_dest_excluded (fs : FS) (d : FPath)
    (od : Option FPath) (heic : FPath) (l : List FPath)
    (hex : pexists fs (plannedDest d od heic)) :
    (∀ j, (heic, j) ∉ (plan_jobs d od false fs l).2) ∧
    (∀ (o : Oracle) (del : Bool),
      (run_jobs o false del (plan_jobs d od false fs l).1
          (plan_jobs d od false fs l).2).2.length =
        (plan_jobs d od false fs l).2.length) :=
  ⟨plan_jobs_skips d od fs l hex,
    fun o del => run_jobs_length o false del _ _⟩

/-- Witness for C6: in a tree where `a/x.jpg` already exists,
`a/x.heic` is excluded from the planned jobs. -/
theorem claim_C6_existing_dest_excluded_witness :
    pexists fsAlreadyConverted
      (plannedDest ["a".data] none ["a".data, "x.heic".data]) ∧
    (["a".data, "x.heic".data], plannedDest ["a".data] none
        ["a".data, "x.heic".data]) ∉
      (plan_jobs ["a".data] none false fsAlreadyConverted
        [["a".data, "x.heic".data]]).2 :=
  ⟨by decide,
    (claim_C6_existing_dest_excluded fsAlreadyConverted
      ["a".data] none ["a".data, "x.heic".data]
      [["a".data, "x.heic".data]] (by decide)).1 _⟩

/-- C7: when `overwrite` is false and the destination exists when
`convert_heic_to_jpg` is called, the call returns success, leaves the
filesystem exactly as it was, and attempts no I/O action at all — no
decode, no JPEG write, and no deletion of the source even when
`delete_original` is set. -/
theorem claim_C7_skip_is_pure (o : Oracle) (fs : FS) (heic jpg : FPath)
    (del : Bool) (hex : pexists fs jpg) :
    convert_heic_to_jpg o fs heic jpg false del = (true, fs, []) := by
  simp [convert_heic_to_jpg, hex]

/-- Witness for C7: with `a/x.jpg` present, converting `a/x.heic` with
`delete_original = true` is the identity on the filesystem even though
every oracle operation would succeed. -/
theorem claim_C7_skip_is_pure_witness :
    pexists fsAlreadyConverted ["a".data, "x.jpg".data] ∧
    convert_heic_to_jpg oracleAllOk fsAlreadyConverted
        ["a".data, "x.heic".data] ["a".data, "x.jpg".data] false true =
      (true, fsAlreadyConverted, []) :=
  ⟨by decide,
    claim_C7_skip_is_pure oracleAllOk fsAlreadyConverted
      ["a".data, "x.heic".data] ["a".data, "x.jpg".data] true (by decide)⟩

/-- C8 counterexample: the claim says the source is removed **iff**
the JPEG write succeeded.  On a job where decode and write succeed but
`os.remove` itself raises (a `DeleteError`), the write has succeeded —
the destination exists and the save is in the trace — yet the source
file is still present, so the "iff" fails; the exception is caught and
the job is reported as a failure. -/
theorem claim_C8_counterexample :
    (convert_heic_to_jpg oracleNoRemove fsOneHeic ["a".data, "x.heic".data]
        ["a".data, "x.jpg".data] false true).1 = false ∧
    Eff.save ["a".data, "x.jpg".data] ∈
      (convert_heic_to_jpg oracleNoRemove fsOneHeic ["a".data, "x.heic".data]
        ["a".data, "x.jpg".data] false true).2.2 ∧
    ["a".data, "x.jpg".data] ∈
      (convert_heic_to_jpg oracleNoRemove fsOneHeic ["a".data, "x.heic".data]
        ["a".data, "x.jpg".data] false true).2.1.files ∧
    ["a".data, "x.heic".data] ∈
      (convert_heic_to_jpg oracleNoRemove fsOneHeic ["a".data, "x.heic".data]
        ["a".data, "x.jpg".data] false true).2.1.files := by
  decide

/-- C8 as amended, for jobs run with `delete_original = true`: a
removal is attempted only after a successful decode and JPEG write;
the source is actually removed only if decode, write and the removal
itself all succeeded; a failed decode or write leaves the filesystem —
in particular the source file — untouched; and on a non-skipped job
where decode, write and removal all succeed the source is removed. -/
theorem claim_C8_amended_delete_original (o : Oracle) (fs : FS)
    (heic jpg : FPath) (ow : Bool) :
    (Eff.remove heic ∈ (convert_heic_to_jpg o fs heic jpg ow true).2.2 →
      o.decodeOk heic = true ∧ o.saveOk heic jpg = true ∧
        Eff.save jpg ∈ (convert_heic_to_jpg o fs heic jpg ow true).2.2) ∧
    (heic ∈ fs.files → heic ∉ (convert_heic_to_jpg o fs heic jpg ow true).2.1.files →
      o.decodeOk heic = true ∧ o.saveOk heic jpg = true ∧
        o.removeOk heic = true) ∧
    ((o.decodeOk heic = false ∨ o.saveOk heic jpg = false) →
      (convert_heic_to_jpg o fs heic jpg ow true).2.1 = fs) ∧
    ((!ow && decide (pexists fs jpg)) = false → o.decodeOk heic = true →
      o.saveOk heic jpg = true → o.removeOk heic = true →
      heic ∉ (convert_heic_to_jpg o fs heic jpg ow true).2.1.files) := by
  unfold convert_heic_to_jpg
  simp only [eq_self_iff_true, if_true]
  split_ifs with h1 h2 h3 h4
  · refine ⟨fun hmem => absurd hmem (List.not_mem_nil _), ?_, fun _ => rfl, ?_⟩
    · intro hin hout
      exact absurd hin hout
    · intro hg
      rw [h1] at hg
      cases hg
  · refine ⟨fun hmem => ?_, ?_, fun _ => rfl, ?_⟩
    · rcases List.mem_singleton.mp hmem with h
      cases h
    · intro hin hout
      exact absurd hin hout
    · intro _ hdec
      rw [hdec] at h2
      cases h2
  · refine ⟨fun hmem => ?_, ?_, fun _ => rfl, ?_⟩
    · rcases List.mem_cons.mp hmem with h | h
      · cases h
      · rcases List.mem_singleton.mp h with h
        cases h
    · intro hin hout
      exact absurd hin hout
    · intro _ _ hsave
      rw [hsave] at h3
      cases h3
  · have hdec : o.decodeOk heic = true := by
      revert h2
      cases o.decodeOk heic <;> simp
    have hsave : o.saveOk heic jpg = true := by
      revert h3
      cases o.saveOk heic jpg <;> simp
    refine ⟨fun _ => ⟨hdec, hsave, ?_⟩, fun _ _ => ⟨hdec, hsave, h4⟩,
      ?_, fun _ _ _ _ => ?_⟩
    · exact List.mem_cons_of_mem _ (List.mem_cons_self _ _)
    · rintro (h | h)
      · rw [h] at hdec; cases hdec
      · rw [h] at hsave; cases hsave
    · show heic ∉ (removeFile (writeFile fs jpg) heic).files
      intro hmem
      have := List.mem_filter.mp hmem
      simp at this
  · have hdec : o.decodeOk heic = true := by
      revert h2
      cases o.decodeOk heic <;> simp
    have hsave : o.saveOk heic jpg = true := by
      revert h3
      cases o.saveOk heic jpg <;> simp
    have hrem : o.removeOk heic = false := by
      revert h4
      cases o.removeOk heic <;> simp
    refine ⟨fun _ => ⟨hdec, hsave, ?_⟩, ?_, ?_, fun _ _ _ hr => ?_⟩
    · exact List.mem_cons_of_mem _ (List.mem_cons_self _ _)
    · intro hin hout
      exact absurd (writeFile_mem_of fs jpg hin) hout
    · rintro (h | h)
      · rw [h] at hdec; cases hdec
      · rw [h] at hsave; cases hsave
    · rw [hr] at hrem
      cases hrem

/-- Witness for the amended C8: on a fresh `a/x.heic` with an all-ok
oracle and `delete_original = true`, the source is removed. -/
theorem claim_C8_amended_delete_original_witness :
    (!false && decide (pexists fsOneHeic ["a".data, "x.jpg".data])) = false ∧
    ["a".data, "x.heic".data] ∉
      (convert_heic_to_jpg oracleAllOk fsOneHeic ["a".data, "x.heic".data]
        ["a".data, "x.jpg".data] false true).2.1.files :=
  ⟨by decide,
    (claim_C8_amended_delete_original oracleAllOk fsOneHeic
      ["a".data, "x.heic".data] ["a".data, "x.jpg".data] false).2.2.2
      (by decide) rfl rfl rfl⟩

/-- C9: the Converter boundary turns every failure into a boolean
outcome (in the embedding `convert_heic_to_jpg` is a total function),
so the Dispatcher attempts every job of the work list exactly once:
the outcome list pairs up with the job list position by position, a
failing job never prevents the jobs after it from running
(the dispatch of `pre ++ post` is the dispatch of `pre` followed by
the dispatch of `post` from the intermediate state, whatever the
outcomes in `pre` were), and the final summary counters satisfy
`success + failure = total` over exactly those jobs. -/
theorem claim_C9_dispatch_isolation (o : Oracle) (ow del : Bool) (fs fs' : FS)
    (pre post : List (FPath × FPath)) (d : FPath) (od : Option FPath) :
    (run_jobs o ow del fs (pre ++ post)).2.length = (pre ++ post).length ∧
    (run_jobs o ow del fs (pre ++ post)).2 =
      (run_jobs o ow del fs pre).2 ++
        (run_jobs o ow del (run_jobs o ow del fs pre).1 post).2 ∧
    (run_pipeline o fs' d od ow del).results.length =
      (run_pipeline o fs' d od ow del).total ∧
    (run_pipeline o fs' d od ow del).success +
        (run_pipeline o fs' d od ow del).failure =
      (run_pipeline o fs' d od ow del).total := by
  refine ⟨run_jobs_length o ow del fs _, ?_, ?_, ?_⟩
  · rw [run_jobs_append]
  · show (run_jobs o ow del _ _).2.length = _
    rw [run_jobs_length]
    rfl
  · show _ + (_ - _) = _
    refine Nat.add_sub_cancel' ?_
    calc (run_jobs o ow del _ _).2.count true
        ≤ (run_jobs o ow del _ _).2.length := List.count_le_length _ _
      _ = _ := run_jobs_length o ow del _ _

/-- C10 counterexample: the claim says every job planned in the first
run is skipped in the second run because its destination exists.  With
a corrupt `a/x.heic` (decode always fails), the first run plans the job
and fails, so no destination is created; the second run plans the very
same job again — it is not skipped — and attempts the conversion again
(one more `false` outcome), refuting the claim as stated. -/
theorem claim_C10_counterexample :
    (run_pipeline oracleNoDecode fsOneHeic ["a".data] none false false).jobs =
      [(["a".data, "x.heic".data], ["a".data, "x.jpg".data])] ∧
    (run_pipeline oracleNoDecode fsOneHeic ["a".data] none false false).results =
      [false] ∧
    (run_pipeline oracleNoDecode
        (run_pipeline oracleNoDecode fsOneHeic ["a".data] none false false).fs
        ["a".data] none false false).jobs =
      [(["a".data, "x.heic".data], ["a".data, "x.jpg".data])] ∧
    (run_pipeline oracleNoDecode
        (run_pipeline oracleNoDecode fsOneHeic ["a".data] none false false).fs
        ["a".data] none false false).results = [false] := by
  decide

/-- C10 as amended: if every job of the first `overwrite = false` run
succeeded, then a second run of the whole pipeline over the same
directory plans zero jobs — every scanned file's destination already
exists — and therefore converts zero files (no outcomes, zero
successes). -/
theorem claim_C10_amended_idempotent (o : Oracle) (fs : FS) (d : FPath)
    (od : Option FPath) (del : Bool)
    (hall : ∀ r ∈ (run_pipeline o fs d od false del).results, r = true) :
    (run_pipeline o (run_pipeline o fs d od false del).fs d od false del).jobs
        = [] ∧
    (run_pipeline o (run_pipeline o fs d od false del).fs d od false del).results
        = [] ∧
    (run_pipeline o (run_pipeline o fs d od false del).fs d od false del).success
        = 0 := by
  simp only [run_pipeline] at hall ⊢
  by_cases hsc : find_heic_files fs d = []
  · rw [hsc]
    show (plan_jobs d od false fs (find_heic_files fs d)).2 = [] ∧
      (run_jobs o false del (plan_jobs d od false fs (find_heic_files fs d)).1
        (plan_jobs d od false fs (find_heic_files fs d)).2).2 = [] ∧
      List.count true
        (run_jobs o false del (plan_jobs d od false fs (find_heic_files fs d)).1
          (plan_jobs d od false fs (find_heic_files fs d)).2).2 = 0
    rw [hsc]
    exact ⟨rfl, rfl, rfl⟩
  · have hsrc1 : ∀ pr ∈ (plan_jobs d od false fs (find_heic_files fs d)).2,
        HeicName (basenameOf pr.1) := by
      intro pr hpr
      exact ((find_mem_iff fs d pr.1).mp
        (plan_jobs_mem d od false fs _ hpr).1).2.2
    have hdst1 : ∀ pr ∈ (plan_jobs d od false fs (find_heic_files fs d)).2,
        ¬ HeicName (basenameOf pr.2) := by
      intro pr hpr
      rw [(plan_jobs_mem d od false fs _ hpr).2]
      exact plannedDest_not_heicName d od pr.1
    obtain ⟨w, hw⟩ := List.exists_mem_of_ne_nil _ hsc
    have hd : d ∈ fs.dirs := ((find_mem_iff fs d w).mp hw).2.1.1
    have hu2 : (run_jobs o false del (plan_jobs d od false fs
        (find_heic_files fs d)).1
        (plan_jobs d od false fs (find_heic_files fs d)).2).1.unreadable =
        fs.unreadable := by
      rw [run_jobs_unreadable, plan_jobs_unreadable]
    have key : ∀ p ∈ find_heic_files (run_jobs o false del
        (plan_jobs d od false fs (find_heic_files fs d)).1
        (plan_jobs d od false fs (find_heic_files fs d)).2).1 d,
        pexists (run_jobs o false del
          (plan_jobs d od false fs (find_heic_files fs d)).1
          (plan_jobs d od false fs (find_heic_files fs d)).2).1
          (plannedDest d od p) := by
      intro p hp
      rcases (find_mem_iff _ d p).mp hp with ⟨hpf2, hre2, hhe⟩
      have hpf : p ∈ fs.files := by
        rcases run_jobs_files_subset o false del _ _ hpf2 with h | ⟨pr, hpr, rfl⟩
        · rw [plan_jobs_files] at h
          exact h
        · exact absurd hhe (hdst1 pr hpr)
      have hp1 : p ∈ find_heic_files fs d :=
        (find_mem_iff fs d p).mpr ⟨hpf, reachable_back hu2 hd hre2, hhe⟩
      rcases plan_jobs_mem_or_skipped d od false fs
          (find_heic_files fs d) hp1 with hin | hex
      · exact run_jobs_success_dest o false del _ _ hall hsrc1 hdst1 _ hin
      · exact run_jobs_preserves o false del _ _ hex
          (plannedDest_not_heicName d od p) hsrc1
    have hjobs2 := plan_jobs_all_skipped d od
      (run_jobs o false del (plan_jobs d od false fs (find_heic_files fs d)).1
        (plan_jobs d od false fs (find_heic_files fs d)).2).1
      (find_heic_files (run_jobs o false del
        (plan_jobs d od false fs (find_heic_files fs d)).1
        (plan_jobs d od false fs (find_heic_files fs d)).2).1 d) key
    refine ⟨hjobs2, ?_, ?_⟩
    · rw [hjobs2]
      rfl
    · rw [hjobs2]
      rfl

/-- Witness for the amended C10: on the example tree with an all-ok
oracle, the first run succeeds on both files and the second run plans
no jobs. -/
theorem claim_C10_amended_idempotent_witness :
    (∀ r ∈ (run_pipeline oracleAllOk fsExample ["a".data] none false
        false).results, r = true) ∧
    (run_pipeline oracleAllOk
        (run_pipeline oracleAllOk fsExample ["a".data] none false false).fs
        ["a".data] none false false).jobs = [] :=
  ⟨by decide,
    (claim_C10_amended_idempotent oracleAllOk fsExample ["a".data] none false
      (by decide)).1⟩
